import Mathlib

/-!
# Verification of the `json_to_struct` procedural macro

Shallow embedding of the repository's three source files:

* `src/parser.rs` — the DSL parser (`JsonMacroInput::parse`, `JsonStruct::parse`,
  `parse_json_value`) over a token model of the `syn`/`proc_macro2` token trees,
  together with the value model `JsonValue` and `JsonValue::to_serde_value`.
* `src/generator.rs` — the type generator (`generate_structs`, `infer_array_type`,
  `sanitize_identifier`).
* `src/lib.rs` — the macro entry point `json2struct` combining the two.

Numbers: the Rust code stores every numeric literal as an `f64` and never
performs arithmetic on it (values are only stored, serialized and compared).
The embedding keeps in-range values as exact rationals (no claim depends on the
rounding of an in-range literal) but models the two effectful steps of the f64
pipeline: `f64::from_str` saturates an overflowing decimal literal to infinity
(it returns `Ok(inf)`, not an error), and
`serde_json::Number::from_f64(..).unwrap_or(Number::from(0))` collapses a
non-finite value to `0`.
-/

namespace JsonToStruct

/-- Embeds `RenameStyle` from src/parser.rs (lines 16-21). -/
inductive RenameStyle
  | camel
  | snake
  | pascal
  deriving DecidableEq, Repr

/-- The `Display` impl for `RenameStyle` (src/parser.rs lines 23-31). -/
def RenameStyle.display : RenameStyle → String
  | .camel => "camelCase"
  | .snake => "snake_case"
  | .pascal => "PascalCase"

/-- Embeds `JsonMacroFlags` from src/parser.rs (lines 7-14). -/
structure JsonMacroFlags where
  debug : Bool
  rename_all : Option RenameStyle
  store_json_value : Bool
  use_serde_alias : Bool
  custom_derives : List String
  deriving DecidableEq, Repr

/-- Embeds `JsonMacroFlags::default()`: the struct carries `#[derive(Default)]`, so every
`bool` field (including `use_serde_alias`) starts out `false`, `rename_all` starts
out `None` and `custom_derives` starts out empty. -/
def defaultFlags : JsonMacroFlags :=
  { debug := false
    rename_all := none
    store_json_value := false
    use_serde_alias := false
    custom_derives := [] }

/-- Embeds the `f64` values stored in `JsonValue::Number`.  A finite double is
kept as the exact rational value of its source literal (no claim depends on the
rounding of an in-range literal); a literal whose magnitude reaches the
round-to-infinity threshold is stored as an infinity, as Rust's
`f64::from_str` produces.  `NaN` is not producible from a decimal literal. -/
inductive F64
  | finite (q : Rat)
  | infinite (negative : Bool)
  deriving DecidableEq, Repr

/-- The smallest positive rational that f64 round-to-nearest-even sends to
infinity, written out as an integer: 2 ^ 1024 - 2 ^ 970.  (The largest finite
double is 2 ^ 1024 - 2 ^ 971; the midpoint 2 ^ 1024 - 2 ^ 970 rounds up to the
even candidate 2 ^ 1024, which overflows.) -/
def f64OverflowThreshold : Rat :=
  179769313486231580793728971405303415079934132710037826936173778980444968292764750946649017977587207096330286416692887910946555547851940402630657488671505820681908902000708383676273854845817711531764475730270069855571366959622842914819860834936475292719074168444365510704342711559699508093042880177904174497792

/-- Embeds `base10_parse::<f64>()` (src/parser.rs lines 234-235) acting on the
exact decimal value of an integer or float literal: in-range values are kept
exactly, values at or beyond the overflow threshold saturate to the
corresponding infinity (Rust's `f64::from_str` returns `Ok(inf)` on overflow
rather than an error). -/
def parseF64 (q : Rat) : F64 :=
  if f64OverflowThreshold ≤ q then F64.infinite false
  else if q ≤ -f64OverflowThreshold then F64.infinite true
  else F64.finite q

/-- Embeds `serde_json::Number::from_f64(*n).unwrap_or(Number::from(0))`
(src/parser.rs lines 149-151): `from_f64` yields a number only for finite
input, so a finite value converts exactly and a non-finite value collapses to
`0`. -/
def numberToSerde : F64 → Rat
  | F64.finite q => q
  | F64.infinite _ => 0

/-- Embeds `JsonValue` from src/parser.rs (lines 97-105).  `Number` carries an
`f64` in the source, modelled by `F64` (see the file header). -/
inductive JsonValue
  | str (s : String)
  | number (n : F64)
  | boolean (b : Bool)
  | null
  | array (elems : List JsonValue)
  | object (entries : List (String × JsonValue))

/-- Embeds `JsonStruct` from src/parser.rs (lines 168-171). -/
structure JsonStruct where
  entries : List (String × JsonValue)

/-- Embeds `JsonMacroInput` from src/parser.rs (lines 33-38). -/
structure JsonMacroInput where
  struct_name : String
  flags : JsonMacroFlags
  content : JsonStruct

/-- The Rust types that `generate_structs` writes into field positions: the token
streams `String`, `f64`, `bool`, `Vec<..>`, `::serde_json::Value`,
`Option<::serde_json::Value>` and a bare identifier naming a nested struct. -/
inductive RustType
  | string
  | f64
  | bool
  | serdeValue
  | vec (elem : RustType)
  | optionOf (t : RustType)
  | path (name : String)
  deriving DecidableEq, Repr

/-- One generated field: the `quote!` fragment built at src/generator.rs lines
126-135, recording the identifier, the inferred type, and the optional
`#[serde(alias = key)]` attribute. -/
structure FieldDef where
  field_name : String
  field_type : RustType
  /-- The optional `#[serde(alias = key)]` attribute (`alias` is reserved in Lean). -/
  serde_alias : Option String
  deriving DecidableEq, Repr

/-- One generated struct: the `quote!` fragment built at src/generator.rs lines
149-164, recording the struct name, the derive list (as written token paths), the
optional `#[serde(rename_all = ..)]` string, and the field list in order. -/
structure TypeDef where
  name : String
  derives : List String
  rename_all : Option String
  fields : List FieldDef
  deriving DecidableEq, Repr

/-- The derive list assembled at src/generator.rs lines 25-38:
`vec![quote!(::std::clone::Clone)]`, then `::std::fmt::Debug` if the `debug`
flag is set, then the `custom_derives` collected from `@derive(...)`, appended
in order with no de-duplication. -/
def derivesOf (flags : JsonMacroFlags) : List String :=
  let base := ["::std::clone::Clone"]
  let base := if flags.debug then base ++ ["::std::fmt::Debug"] else base
  base ++ flags.custom_derives

/-- Models Rust's `char::is_alphanumeric` (Unicode `Alphabetic` or numeric).
The model is exact on ASCII and on the two non-ASCII code points that any
statement below evaluates it at: U+0130 LATIN CAPITAL LETTER I WITH DOT ABOVE
(alphabetic) and U+0307 COMBINING DOT ABOVE (a nonspacing mark that is neither
alphabetic — it lacks the `Other_Alphabetic` property — nor numeric).  Other
non-ASCII code points are not modelled precisely and are never evaluated. -/
def char_is_alphanumeric (c : Char) : Bool :=
  if c.toNat < 128 then c.isAlpha || c.isDigit
  else if c.toNat = 0x130 then true
  else if c.toNat = 0x307 then false
  else false

/-- Models Rust's `str::to_lowercase` acting on one character (the full Unicode
lowercase mapping).  Exact on ASCII; per `SpecialCasing.txt` (and the example in
the Rust standard library documentation of `str::to_lowercase`), U+0130 maps to
the two-character sequence U+0069 U+0307.  Other non-ASCII code points used in
this development (U+0307 itself) are unchanged by lowercasing. -/
def char_to_lowercase (c : Char) : List Char :=
  if 'A' ≤ c ∧ c ≤ 'Z' then [Char.ofNat (c.toNat + 32)]
  else if c.toNat = 0x130 then [Char.ofNat 0x69, Char.ofNat 0x307]
  else [c]

/-- The two stages of `sanitize_identifier` on the character list: replace every
character that is not alphanumeric by `'_'` (the `chars().map(..)` stage), then
lowercase the whole result (the `.to_lowercase()` stage). -/
def sanitizeChars (l : List Char) : List Char :=
  (l.map (fun c => if char_is_alphanumeric c then c else '_')).flatMap char_to_lowercase

/-- Embeds `sanitize_identifier` from src/generator.rs (lines 202-207): replace every
character that is not alphanumeric by `'_'`, collect, then lowercase the whole
string. -/
def sanitize_identifier (name : String) : String :=
  String.mk (sanitizeChars name.data)

/-- Character-level worker for `pascalCase`: `start` is true at the beginning of
a word (start of string or right after a non-alphanumeric separator),
`prevLower` is true when the previous emitted character was a lowercase letter
or digit (a lower-to-upper transition starts a new word). -/
def pcAux : Bool → Bool → List Char → List Char
  | _, _, [] => []
  | start, prevLower, c :: r =>
    if c.isAlpha || c.isDigit then
      (if start || (prevLower && c.isUpper) then c.toUpper else c.toLower)
        :: pcAux false (c.isLower || c.isDigit) r
    else
      pcAux true false r

/-- Modelled from the external `inflections` crate's `to_pascal_case` (used at
src/generator.rs line 70 via `key.to_pascal_case()`): words are maximal
alphanumeric runs, further split where a lowercase letter is followed by an
uppercase one; each word is emitted with its first letter uppercased and the
rest lowercased, and the words are concatenated.  The model is exact for the
ASCII keys evaluated in this development (e.g. `"addr" ↦ "Addr"`). -/
def pascalCase (s : String) : String :=
  String.mk (pcAux true false s.data)

/-- Embeds `infer_array_type` from src/generator.rs (lines 178-193): an empty array
maps to `::serde_json::Value`; otherwise only the first element is inspected,
with string/number/boolean mapping to the corresponding primitive and
everything else falling back to `::serde_json::Value`. -/
def infer_array_type : List JsonValue → RustType
  | [] => RustType.serdeValue
  | v :: _ =>
    match v with
    | JsonValue.str _ => RustType.string
    | JsonValue.number _ => RustType.f64
    | JsonValue.boolean _ => RustType.bool
    | _ => RustType.serdeValue

/-- The entry loop of `generate_structs` (src/generator.rs lines 41-138): for
each `(key, value)` entry in order, build a `FieldDef` (sanitized name, inferred
type, optional alias) and, for object values, recursively generate the nested
struct named `base ++ pascalCase key` (the recursive call at lines 70-92 passes
the same flags and collects the nested auxiliaries before the nested struct
itself).  Returns the fields of this level together with the accumulated
auxiliary structs. -/
def genEntries (flags : JsonMacroFlags) (base : String) :
    List (String × JsonValue) → List FieldDef × List TypeDef
  | [] => ([], [])
  | (key, v) :: rest =>
    let fieldAux : RustType × List TypeDef :=
      match v with
      | JsonValue.str _ => (RustType.string, [])
      | JsonValue.number _ => (RustType.f64, [])
      | JsonValue.boolean _ => (RustType.bool, [])
      | JsonValue.null => (RustType.optionOf RustType.serdeValue, [])
      | JsonValue.array arr => (RustType.vec (infer_array_type arr), [])
      | JsonValue.object obj =>
        let nestedName := base ++ pascalCase key
        let nested := genEntries flags nestedName obj
        let nestedType : TypeDef :=
          { name := nestedName
            derives := derivesOf flags
            rename_all := (flags.rename_all.map RenameStyle.display)
            fields := nested.1 }
        (RustType.path nestedName, nested.2 ++ [nestedType])
    let field : FieldDef :=
      { field_name := sanitize_identifier key
        field_type := fieldAux.1
        serde_alias := if flags.use_serde_alias then some key else none }
    let tail := genEntries flags base rest
    (field :: tail.1, fieldAux.2 ++ tail.2)
termination_by es => sizeOf es

/-- Assembling one struct in `generate_structs` (src/generator.rs lines
140-166): the base name, the derive list, the optional rename attribute and the
fields of this level. -/
def genStruct (flags : JsonMacroFlags) (entries : List (String × JsonValue))
    (baseName : String) : TypeDef × List TypeDef :=
  let res := genEntries flags baseName entries
  ({ name := baseName
     derives := derivesOf flags
     rename_all := flags.rename_all.map RenameStyle.display
     fields := res.1 }, res.2)

/-- Embeds `generate_structs` from src/generator.rs (lines 17-167): given the parsed
macro input and a base name, produce the main struct and the list of auxiliary
nested structs. -/
def generate_structs (json_struct : JsonMacroInput) (base_name : String) :
    TypeDef × List TypeDef :=
  genStruct json_struct.flags json_struct.content.entries base_name

/-! ## Token model of the parser input

`syn` hands the parser a stream of token trees.  The forms the code ever
distinguishes are: identifiers, the punctuation `@`, `:` and `,`, the literal
kinds `Lit::Str`, `Lit::Int`, `Lit::Float`, `Lit::Bool` (any other literal kind
is modelled by `litOther`), and the three delimited groups.  The stream type
`TokList` is declared mutually with `Tok` (rather than as `List Tok`) so that
the recursive parsing functions below are structurally recursive and hence
directly computable. -/
mutual

inductive Tok
  | ident (s : String)
  | atSign
  | colon
  | comma
  | litStr (s : String)
  | litInt (i : Int)
  | litFloat (q : Rat)
  | litBool (b : Bool)
  | litOther
  | braces (ts : TokList)
  | brackets (ts : TokList)
  | parens (ts : TokList)

inductive TokList
  | nil
  | cons (t : Tok) (ts : TokList)

end

/-- Build a token stream from a Lean list (used to write concrete streams and
token-stream generators concisely). -/
def TokList.ofList : List Tok → TokList
  | [] => TokList.nil
  | t :: ts => TokList.cons t (TokList.ofList ts)

/-- Embeds `ParseStream::is_empty`. -/
def TokList.isEmpty : TokList → Bool
  | TokList.nil => true
  | TokList.cons _ _ => false

mutual

/-- Embeds `parse_json_value` from src/parser.rs (lines 206-239).  It consumes exactly
one token tree from the stream: a bracket group (array), a brace group (nested
object, via `JsonStruct::parse`), or a literal; `Lit::Int` and `Lit::Float` are
both normalized to `Number`, any other literal kind is the
"Unsupported literal type" error, and a non-literal token fails `Lit` parsing. -/
def parseJsonValue1 : Tok → Except String JsonValue
  | Tok.brackets ts =>
    match parseArrLoop ts with
    | Except.ok vs => Except.ok (JsonValue.array vs)
    | Except.error e => Except.error e
  | Tok.braces ts =>
    match parseObjLoop ts with
    | Except.ok es => Except.ok (JsonValue.object es)
    | Except.error e => Except.error e
  | Tok.litStr s => Except.ok (JsonValue.str s)
  | Tok.litInt i => Except.ok (JsonValue.number (parseF64 (Rat.ofInt i)))
  | Tok.litFloat q => Except.ok (JsonValue.number (parseF64 q))
  | Tok.litBool b => Except.ok (JsonValue.boolean b)
  | Tok.litOther => Except.error "Unsupported literal type"
  | _ => Except.error "expected literal"

/-- The entry loop of `JsonStruct::parse` (src/parser.rs lines 178-202), run on
the contents of an already-consumed brace group: while tokens remain, parse a
string-literal key, a `:`, a value, and then consume one comma **if present**
(`if content.peek(Token![,]) { content.parse::<Token![,]>()?; }` — the comma is
optional, both between entries and after the last one).  The two success arms
below realize the optional-comma step: the first fires when a comma follows the
value and consumes it, the second (by first-match order) when none does. -/
def parseObjLoop : TokList → Except String (List (String × JsonValue))
  | TokList.nil => Except.ok []
  | TokList.cons (Tok.litStr k) (TokList.cons Tok.colon
      (TokList.cons t (TokList.cons Tok.comma rest))) =>
    match parseJsonValue1 t with
    | Except.error e => Except.error e
    | Except.ok v =>
      match parseObjLoop rest with
      | Except.ok l => Except.ok ((k, v) :: l)
      | Except.error e => Except.error e
  | TokList.cons (Tok.litStr k) (TokList.cons Tok.colon (TokList.cons t rest)) =>
    match parseJsonValue1 t with
    | Except.error e => Except.error e
    | Except.ok v =>
      match parseObjLoop rest with
      | Except.ok l => Except.ok ((k, v) :: l)
      | Except.error e => Except.error e
  | TokList.cons (Tok.litStr _) (TokList.cons Tok.colon TokList.nil) =>
    Except.error "expected json value"
  | TokList.cons (Tok.litStr _) _ => Except.error "expected colon"
  | TokList.cons (Tok.litInt _) _ => Except.error "Key must be a string"
  | TokList.cons (Tok.litFloat _) _ => Except.error "Key must be a string"
  | TokList.cons (Tok.litBool _) _ => Except.error "Key must be a string"
  | TokList.cons Tok.litOther _ => Except.error "Key must be a string"
  | TokList.cons _ _ => Except.error "expected literal"

/-- The element loop of the array branch of `parse_json_value` (src/parser.rs
lines 207-222), run on the contents of an already-consumed bracket group: while
tokens remain, parse a value and consume one comma if present (optional, via
the same two-arm encoding as in the object loop). -/
def parseArrLoop : TokList → Except String (List JsonValue)
  | TokList.nil => Except.ok []
  | TokList.cons t (TokList.cons Tok.comma rest) =>
    match parseJsonValue1 t with
    | Except.error e => Except.error e
    | Except.ok v =>
      match parseArrLoop rest with
      | Except.ok l => Except.ok (v :: l)
      | Except.error e => Except.error e
  | TokList.cons t rest =>
    match parseJsonValue1 t with
    | Except.error e => Except.error e
    | Except.ok v =>
      match parseArrLoop rest with
      | Except.ok l => Except.ok (v :: l)
      | Except.error e => Except.error e

end

/-- Embeds `JsonStruct::parse` (src/parser.rs lines 173-204): `braced!` consumes one
brace group from the stream, then the entry loop runs on its contents.  Returns
the parsed entries together with the tokens remaining after the group. -/
def parseJsonStruct : TokList → Except String (JsonStruct × TokList)
  | TokList.cons (Tok.braces ts) rest =>
    match parseObjLoop ts with
    | Except.ok es => Except.ok (⟨es⟩, rest)
    | Except.error e => Except.error e
  | _ => Except.error "expected curly braces"

/-- Embeds `content.parse_terminated(Ident::parse, Token![,])` inside the `derive`
branch (src/parser.rs line 66): identifiers separated by commas, with an
optional trailing comma and the empty list allowed. -/
def parseIdentList : TokList → Except String (List String)
  | TokList.nil => Except.ok []
  | TokList.cons (Tok.ident s) TokList.nil => Except.ok [s]
  | TokList.cons (Tok.ident s) (TokList.cons Tok.comma rest) =>
    match parseIdentList rest with
    | Except.ok l => Except.ok (s :: l)
    | Except.error e => Except.error e
  | TokList.cons (Tok.ident _) _ => Except.error "expected comma"
  | _ => Except.error "expected identifier"

/-- The error produced for an unrecognized flag (src/parser.rs lines 73-76). -/
def unknownFlagMessage (f : String) : String :=
  "Unknown flag: " ++ f ++
    " Supported flags: @debug @camel @snake @pascal @store_json @no_alias @derive(...)"

/-- The flag loop of `JsonMacroInput::parse` (src/parser.rs lines 46-78):
while the next token is `@`, consume it, parse an identifier and dispatch on
its name; `derive` additionally requires a parenthesized identifier list, which
is appended to `custom_derives`; any unrecognized name aborts with
`unknownFlagMessage`. -/
def parseFlags (flags : JsonMacroFlags) : TokList → Except String (JsonMacroFlags × TokList)
  | TokList.cons Tok.atSign (TokList.cons (Tok.ident f) rest) =>
    match f with
    | "debug" => parseFlags { flags with debug := true } rest
    | "store_json" => parseFlags { flags with store_json_value := true } rest
    | "no_alias" => parseFlags { flags with use_serde_alias := false } rest
    | "camel" => parseFlags { flags with rename_all := some RenameStyle.camel } rest
    | "snake" => parseFlags { flags with rename_all := some RenameStyle.snake } rest
    | "pascal" => parseFlags { flags with rename_all := some RenameStyle.pascal } rest
    | "derive" =>
      match rest with
      | TokList.cons (Tok.parens ts) rest2 =>
        match parseIdentList ts with
        | Except.ok ids =>
          parseFlags { flags with custom_derives := flags.custom_derives ++ ids } rest2
        | Except.error e => Except.error e
      | _ => Except.error "expected @derive(...)"
    | _ => Except.error (unknownFlagMessage f)
  | TokList.cons Tok.atSign _ => Except.error "expected identifier"
  | ts => Except.ok (flags, ts)

/-- Embeds `JsonMacroInput::parse` (src/parser.rs lines 40-94): parse the struct name,
run the flag loop starting from `JsonMacroFlags::default()`, then `braced!`
consumes a brace group whose contents are handed to `JsonStruct::parse` (which
consumes a second, inner brace group).  Tokens left over inside the outer group
(reported through syn's unconsumed-token check) or after it (reported by
`parse_macro_input!`) are an error. -/
def parseMacroInput : TokList → Except String JsonMacroInput
  | TokList.cons (Tok.ident name) rest =>
    match parseFlags defaultFlags rest with
    | Except.error e => Except.error e
    | Except.ok (flags, rest1) =>
      match rest1 with
      | TokList.cons (Tok.braces ts) rest2 =>
        match parseJsonStruct ts with
        | Except.error e => Except.error e
        | Except.ok (js, leftover) =>
          if leftover.isEmpty && rest2.isEmpty then
            Except.ok ⟨name, flags, js⟩
          else Except.error "unexpected token"
      | _ => Except.error "expected curly braces"
  | _ => Except.error "expected identifier"

/-! ## The serde value model

`JsonValue::to_serde_value` (src/parser.rs lines 146-165) converts the parsed
tree into a `serde_json::Value`.  `serde_json`'s `Map` is (without the
`preserve_order` feature) a `BTreeMap<String, Value>`: collecting an iterator
inserts the pairs left to right into a key-sorted map, a later pair with an
equal key overwriting the earlier one.  `BTreeMap`'s string order is byte-wise
lexicographic on UTF-8, which coincides with code-point lexicographic order. -/
inductive SValue
  | str (s : String)
  | num (n : Rat)
  | bool (b : Bool)
  | null
  | arr (elems : List SValue)
  | obj (entries : List (String × SValue))

/-- Code-point lexicographic order on character lists (the order of Rust's
`BTreeMap<String, _>`, since UTF-8 byte order agrees with code-point order). -/
def charListLt : List Char → List Char → Bool
  | [], [] => false
  | [], _ :: _ => true
  | _ :: _, [] => false
  | a :: as, b :: bs =>
    if a.toNat < b.toNat then true
    else if b.toNat < a.toNat then false
    else charListLt as bs

/-- String order of `BTreeMap<String, _>`. -/
def strLt (a b : String) : Bool := charListLt a.data b.data

/-- Embeds `BTreeMap::insert` on the sorted-association-list representation: insert
before the first larger key, replace an equal key in place. -/
def mapInsert (k : String) (v : SValue) : List (String × SValue) → List (String × SValue)
  | [] => [(k, v)]
  | (k', v') :: rest =>
    if strLt k k' then (k, v) :: (k', v') :: rest
    else if k = k' then (k, v) :: rest
    else (k', v') :: mapInsert k v rest

/-- Embeds `BTreeMap::get`. -/
def mapLookup (k : String) : List (String × SValue) → Option SValue
  | [] => none
  | (k', v') :: rest => if k = k' then some v' else mapLookup k rest

/-- Embeds `collect::<serde_json::Map<_, _>>()`: insert the pairs left to right into an
empty map, so that for a repeated key the last pair wins. -/
def mapCollect (l : List (String × SValue)) : List (String × SValue) :=
  l.foldl (fun m p => mapInsert p.1 p.2 m) []

mutual

/-- Embeds `JsonValue::to_serde_value` (src/parser.rs lines 146-165).  For
`Number`, the source calls `serde_json::Number::from_f64(n).unwrap_or(0)`,
modelled by `numberToSerde`: a finite value is kept, a non-finite one (an
overflowed literal) collapses to `0`. -/
def to_serde_value : JsonValue → SValue
  | JsonValue.str s => SValue.str s
  | JsonValue.number n => SValue.num (numberToSerde n)
  | JsonValue.boolean b => SValue.bool b
  | JsonValue.null => SValue.null
  | JsonValue.array xs => SValue.arr (toSerdeList xs)
  | JsonValue.object es => SValue.obj (mapCollect (toSerdeEntries es))
termination_by v => sizeOf v

/-- Embeds `arr.iter().map(|v| v.to_serde_value()).collect()` (src/parser.rs line 155). -/
def toSerdeList : List JsonValue → List SValue
  | [] => []
  | v :: r => to_serde_value v :: toSerdeList r
termination_by l => sizeOf l

/-- Embeds `obj.iter().map(|(k, v)| (k.clone(), v.to_serde_value()))` (src/parser.rs
lines 158-161), before the map is collected. -/
def toSerdeEntries : List (String × JsonValue) → List (String × SValue)
  | [] => []
  | (k, v) :: r => (k, to_serde_value v) :: toSerdeEntries r
termination_by es => sizeOf es

end

mutual

/-- Structural equality between a parsed `JsonValue` tree and a (decoded) serde
value: leaves must agree, arrays must agree pointwise, and an object must have
exactly as many entries as the map together with every `(key, value)` entry of
the object present in the map with a structurally equal value. -/
def streq : JsonValue → SValue → Bool
  | JsonValue.str a, SValue.str b => a = b
  | JsonValue.number a, SValue.num b => a = F64.finite b
  | JsonValue.boolean a, SValue.bool b => a = b
  | JsonValue.null, SValue.null => true
  | JsonValue.array xs, SValue.arr ys => streqList xs ys
  | JsonValue.object es, SValue.obj m => es.length = m.length && streqEntries es m
  | _, _ => false
termination_by v _ => sizeOf v

/-- Pointwise structural equality of array elements. -/
def streqList : List JsonValue → List SValue → Bool
  | [], [] => true
  | x :: xs, y :: ys => streq x y && streqList xs ys
  | _, _ => false
termination_by l _ => sizeOf l

/-- Every entry of the object occurs in the map with a structurally equal value. -/
def streqEntries : List (String × JsonValue) → List (String × SValue) → Bool
  | [], _ => true
  | (k, v) :: rest, m =>
    (match mapLookup k m with
     | some w => streq v w
     | none => false) && streqEntries rest m
termination_by es _ => sizeOf es

end

/-- Holds (as `true`) when a list of keys is pairwise distinct. -/
def keysDistinct : List String → Bool
  | [] => true
  | k :: rest => !(rest.any (fun k' => k' = k)) && keysDistinct rest

mutual

/-- Holds (as `true`) when every object anywhere in the value has pairwise-distinct keys. -/
def dupFree : JsonValue → Bool
  | JsonValue.array xs => dupFreeList xs
  | JsonValue.object es => keysDistinct (es.map Prod.fst) && dupFreeEntries es
  | _ => true
termination_by v => sizeOf v

/-- Applies `dupFree` to every array element. -/
def dupFreeList : List JsonValue → Bool
  | [] => true
  | v :: r => dupFree v && dupFreeList r
termination_by l => sizeOf l

/-- Applies `dupFree` to every entry value. -/
def dupFreeEntries : List (String × JsonValue) → Bool
  | [] => true
  | (_, v) :: r => dupFree v && dupFreeEntries r
termination_by es => sizeOf es

end

mutual

/-- Holds (as `true`) when every number stored anywhere in the value is finite
(no literal overflowed to an f64 infinity). -/
def finiteNums : JsonValue → Bool
  | JsonValue.number (F64.infinite _) => false
  | JsonValue.array xs => finiteNumsList xs
  | JsonValue.object es => finiteNumsEntries es
  | _ => true
termination_by v => sizeOf v

/-- Applies `finiteNums` to every array element. -/
def finiteNumsList : List JsonValue → Bool
  | [] => true
  | v :: r => finiteNums v && finiteNumsList r
termination_by l => sizeOf l

/-- Applies `finiteNums` to every entry value. -/
def finiteNumsEntries : List (String × JsonValue) → Bool
  | [] => true
  | (_, v) :: r => finiteNums v && finiteNumsEntries r
termination_by es => sizeOf es

end

/-! ## The macro entry point -/

/-- The complete output of one `json2struct!` invocation: the decoded value of
the optional `<NAME>_JSON_VALUE` constant, the main struct, and the auxiliary
structs, in emission order. -/
structure MacroOutput where
  json_constant : Option SValue
  main : TypeDef
  auxiliaries : List TypeDef

/-- The body of `json2struct` after parsing succeeds (src/lib.rs lines
182-228).  When `store_json_value` is set, the emitted constant holds
`serde_json::from_str(serde_json::to_string(v))` where `v` is
`Value::Object(entries.map(to_serde_value).collect())`; by the round-trip
contract of the external `serde_json` library (compact printing of a finite
value re-parses to an equal value), the decoded constant is `v` itself, so the
model stores `to_serde_value` of the root object directly. -/
def json2structOutput (inp : JsonMacroInput) : MacroOutput :=
  let json_constant :=
    if inp.flags.store_json_value then
      some (to_serde_value (JsonValue.object inp.content.entries))
    else none
  let res := generate_structs inp inp.struct_name
  ⟨json_constant, res.1, res.2⟩

/-- Embeds `json2struct` from src/lib.rs (lines 176-229): parse the invocation, then
emit the optional constant, the main struct, and the auxiliary structs.  A
parse error aborts the invocation with no output. -/
def json2struct (ts : TokList) : Except String MacroOutput :=
  match parseMacroInput ts with
  | Except.error e => Except.error e
  | Except.ok inp => Except.ok (json2structOutput inp)

/-! ## Statement-support definitions -/

/-- The token stream of a brace-group body holding the given string-keyed,
string-valued entries, with (`withComma := true`) or without
(`withComma := false`) a comma after **each** entry — so the `true` form also
ends in a trailing comma. -/
def objToks (withComma : Bool) : List (String × String) → TokList
  | [] => TokList.nil
  | (k, v) :: rest =>
    TokList.cons (Tok.litStr k) (TokList.cons Tok.colon (TokList.cons (Tok.litStr v)
      (if withComma then TokList.cons Tok.comma (objToks withComma rest)
       else objToks withComma rest)))

/-- The token stream of a bracket-group body holding the given string elements,
with or without a comma after each element. -/
def arrToks (withComma : Bool) : List String → TokList
  | [] => TokList.nil
  | v :: rest =>
    TokList.cons (Tok.litStr v)
      (if withComma then TokList.cons Tok.comma (arrToks withComma rest)
       else arrToks withComma rest)

/-- The entry list of a serde object value (empty for non-objects). -/
def objEntriesOf : SValue → List (String × SValue)
  | SValue.obj m => m
  | _ => []

/-! ## Helper lemmas -/

/-- Every auxiliary struct collected by the entry loop carries the derive list
and rename attribute computed from the (shared) flags. -/
theorem genEntries_aux_config (flags : JsonMacroFlags) (base : String)
    (es : List (String × JsonValue)) :
    ∀ t ∈ (genEntries flags base es).2,
      t.derives = derivesOf flags
        ∧ t.rename_all = flags.rename_all.map RenameStyle.display := by
  match es with
  | [] =>
    simp [genEntries]
  | (key, v) :: rest =>
    have ihRest := genEntries_aux_config flags base rest
    cases v with
    | str s =>
      simpa [genEntries] using ihRest
    | number n =>
      simpa [genEntries] using ihRest
    | boolean b =>
      simpa [genEntries] using ihRest
    | null =>
      simpa [genEntries] using ihRest
    | array arr =>
      simpa [genEntries] using ihRest
    | object obj =>
      have ihObj := genEntries_aux_config flags (base ++ pascalCase key) obj
      intro t ht
      simp only [genEntries, List.mem_append, List.mem_singleton] at ht
      rcases ht with (h | h) | h
      · exact ihObj t h
      · subst h
        exact ⟨rfl, rfl⟩
      · exact ihRest t h
termination_by sizeOf es

/-! ## Claims -/

/-- C5: array element types are inferred from the first element only — the
empty array gives `::serde_json::Value`, a leading string/number/boolean gives
the corresponding primitive, any other leading element (object, array, null)
gives `::serde_json::Value`, later elements are never inspected, and the entry
loop wraps the result in `Vec<..>`. -/
theorem infer_array_type_first_element_only :
    (infer_array_type [] = RustType.serdeValue)
    ∧ (∀ v rest, infer_array_type (v :: rest) = infer_array_type [v])
    ∧ (∀ s rest, infer_array_type (JsonValue.str s :: rest) = RustType.string)
    ∧ (∀ n rest, infer_array_type (JsonValue.number n :: rest) = RustType.f64)
    ∧ (∀ b rest, infer_array_type (JsonValue.boolean b :: rest) = RustType.bool)
    ∧ (∀ rest, infer_array_type (JsonValue.null :: rest) = RustType.serdeValue)
    ∧ (∀ xs rest, infer_array_type (JsonValue.array xs :: rest) = RustType.serdeValue)
    ∧ (∀ es rest, infer_array_type (JsonValue.object es :: rest) = RustType.serdeValue)
    ∧ (∀ flags base key arr rest,
        ((genEntries flags base ((key, JsonValue.array arr) :: rest)).1.head?.map
            FieldDef.field_type)
          = some (RustType.vec (infer_array_type arr))) := by
  refine ⟨rfl, fun v rest => ?_, fun s rest => rfl, fun n rest => rfl, fun b rest => rfl,
    fun rest => rfl, fun xs rest => rfl, fun es rest => rfl,
    fun flags base key arr rest => ?_⟩
  · cases v <;> rfl
  · simp [genEntries]

/-- C6: an object-valued entry produces a field whose type is a reference to
the auxiliary struct named by concatenating the enclosing base name with the
PascalCase form of the key, and that auxiliary struct is in the output;
concretely, base `User` with entry `"addr"` yields auxiliary `UserAddr`. -/
theorem nested_object_naming :
    (∀ flags base key obj rest,
        ((genEntries flags base ((key, JsonValue.object obj) :: rest)).1.head?.map
            FieldDef.field_type)
          = some (RustType.path (base ++ pascalCase key))
        ∧ (base ++ pascalCase key)
            ∈ (genEntries flags base ((key, JsonValue.object obj) :: rest)).2.map TypeDef.name)
    ∧ ((genStruct defaultFlags [("addr", JsonValue.object [("city", JsonValue.str "X")])]
          "User").2.map TypeDef.name = ["UserAddr"])
    ∧ ((genStruct defaultFlags [("addr", JsonValue.object [("city", JsonValue.str "X")])]
          "User").1.fields.map FieldDef.field_type = [RustType.path "UserAddr"]) := by
  refine ⟨fun flags base key obj rest => ⟨?_, ?_⟩, ?_, ?_⟩
  · simp [genEntries]
  · simp [genEntries]
  · simp [genStruct, genEntries, pascalCase, pcAux]
  · simp [genStruct, genEntries, pascalCase, pcAux]

/-- C2 (counterexample): the derive list is NOT de-duplicated — the invocation
`T @derive(PartialEq, PartialEq) {{ }}` produces a type whose capability list
contains `PartialEq` twice, refuting "no capability token appears twice even
when the user passes a duplicate via @derive". -/
theorem capability_dedup_cx :
    json2struct (TokList.ofList [Tok.ident "T", Tok.atSign, Tok.ident "derive",
        Tok.parens (TokList.ofList [Tok.ident "PartialEq", Tok.comma, Tok.ident "PartialEq"]),
        Tok.braces (TokList.ofList [Tok.braces TokList.nil])])
      = Except.ok ⟨none,
          { name := "T", derives := ["::std::clone::Clone", "PartialEq", "PartialEq"],
            rename_all := none, fields := [] }, []⟩
    ∧ ¬ (["::std::clone::Clone", "PartialEq", "PartialEq"] : List String).Nodup := by
  constructor
  · have hp : parseMacroInput (TokList.ofList [Tok.ident "T", Tok.atSign, Tok.ident "derive",
        Tok.parens (TokList.ofList [Tok.ident "PartialEq", Tok.comma, Tok.ident "PartialEq"]),
        Tok.braces (TokList.ofList [Tok.braces TokList.nil])])
        = Except.ok ⟨"T", ⟨false, none, false, false, ["PartialEq", "PartialEq"]⟩, ⟨[]⟩⟩ := rfl
    simp [json2struct, hp, json2structOutput, generate_structs, genStruct, genEntries,
      derivesOf]
  · decide

/-- C2 (amended): the capability list of every generated type (primary and
auxiliary) is exactly `copyable` followed by `debuggable` (when the debug flag
is set) followed by `extra_capabilities` in order — copyable always first and
order preserved, but with NO de-duplication: a capability passed twice via
`@derive` appears twice. -/
theorem capability_list_no_dedup (flags : JsonMacroFlags) (es : List (String × JsonValue))
    (base : String) (t : TypeDef)
    (h : t = (genStruct flags es base).1 ∨ t ∈ (genStruct flags es base).2) :
    t.derives = "::std::clone::Clone"
        :: ((if flags.debug then ["::std::fmt::Debug"] else []) ++ flags.custom_derives) := by
  have hder : derivesOf flags
      = "::std::clone::Clone"
          :: ((if flags.debug then ["::std::fmt::Debug"] else []) ++ flags.custom_derives) := by
    cases hd : flags.debug <;> simp [derivesOf, hd]
  rcases h with h | h
  · subst h
    simpa [genStruct] using hder
  · have hc := genEntries_aux_config flags base es t (by simpa [genStruct] using h)
    rw [hc.1, hder]

/-- Witness for `capability_list_no_dedup` at a concrete input with a duplicate
custom derive. -/
theorem capability_list_no_dedup_witness :
    (genStruct ⟨true, none, false, false, ["PartialEq", "PartialEq"]⟩ [] "T").1.derives
      = "::std::clone::Clone"
          :: ((if (⟨true, none, false, false, ["PartialEq", "PartialEq"]⟩
                    : JsonMacroFlags).debug
                then ["::std::fmt::Debug"] else [])
              ++ (⟨true, none, false, false,
                    ["PartialEq", "PartialEq"]⟩ : JsonMacroFlags).custom_derives) :=
  capability_list_no_dedup _ [] "T" _ (Or.inl rfl)

/-- C8: every type generated for one `MacroInput` — the primary and all
auxiliaries — carries the same derive list and the same rename attribute as the
primary; configuration is never overridden per nested type. -/
theorem uniform_configuration (inp : JsonMacroInput) (base : String) (t : TypeDef)
    (h : t ∈ (generate_structs inp base).1 :: (generate_structs inp base).2) :
    t.derives = (generate_structs inp base).1.derives
      ∧ t.rename_all = (generate_structs inp base).1.rename_all := by
  have hmain : (generate_structs inp base).1.derives = derivesOf inp.flags
      ∧ (generate_structs inp base).1.rename_all
          = inp.flags.rename_all.map RenameStyle.display := by
    constructor <;> simp [generate_structs, genStruct]
  rcases List.mem_cons.mp h with h | h
  · subst h
    exact ⟨rfl, rfl⟩
  · have hc := genEntries_aux_config inp.flags base inp.content.entries t
      (by simpa [generate_structs, genStruct] using h)
    exact ⟨hc.1.trans hmain.1.symm, hc.2.trans hmain.2.symm⟩

/-- Witness for `uniform_configuration`: the auxiliary `UserAddr` produced for a
nested object carries the primary's configuration. -/
theorem uniform_configuration_witness :
    ((⟨"UserAddr", ["::std::clone::Clone", "::std::fmt::Debug"], some "camelCase",
        [⟨"city", RustType.string, none⟩]⟩ : TypeDef)
      ∈ (generate_structs
          ⟨"User", ⟨true, some RenameStyle.camel, false, false, []⟩,
            ⟨[("addr", JsonValue.object [("city", JsonValue.str "X")])]⟩⟩ "User").1
        :: (generate_structs
          ⟨"User", ⟨true, some RenameStyle.camel, false, false, []⟩,
            ⟨[("addr", JsonValue.object [("city", JsonValue.str "X")])]⟩⟩ "User").2)
    ∧ ((⟨"UserAddr", ["::std::clone::Clone", "::std::fmt::Debug"], some "camelCase",
          [⟨"city", RustType.string, none⟩]⟩ : TypeDef).derives
        = (generate_structs
            ⟨"User", ⟨true, some RenameStyle.camel, false, false, []⟩,
              ⟨[("addr", JsonValue.object [("city", JsonValue.str "X")])]⟩⟩ "User").1.derives
      ∧ (⟨"UserAddr", ["::std::clone::Clone", "::std::fmt::Debug"], some "camelCase",
          [⟨"city", RustType.string, none⟩]⟩ : TypeDef).rename_all
        = (generate_structs
            ⟨"User", ⟨true, some RenameStyle.camel, false, false, []⟩,
              ⟨[("addr", JsonValue.object [("city", JsonValue.str "X")])]⟩⟩ "User").1.rename_all) :=
  ⟨by simp [generate_structs, genStruct, genEntries, derivesOf, defaultFlags, pascalCase, pcAux,
      sanitize_identifier, sanitizeChars, char_is_alphanumeric, char_to_lowercase,
      RenameStyle.display],
   uniform_configuration _ "User" _
     (by simp [generate_structs, genStruct, genEntries, derivesOf, defaultFlags, pascalCase,
        pcAux, sanitize_identifier, sanitizeChars, char_is_alphanumeric, char_to_lowercase,
        RenameStyle.display])⟩

/-- C1: `use_serde_alias` comes from `#[derive(Default)]`, so it is `false` for
an invocation without flags and nothing ever sets it to `true`; consequently no
generated field carries a serde alias even when `@no_alias` is absent — the
invocation `User {{ "first_name": "John" }}` yields a field with no alias,
contradicting the documented default-on alias emission. -/
theorem aliases_never_emitted :
    defaultFlags.use_serde_alias = false
    ∧ json2struct (TokList.ofList [Tok.ident "User",
          Tok.braces (TokList.ofList [Tok.braces (TokList.ofList
            [Tok.litStr "first_name", Tok.colon, Tok.litStr "John"])])])
        = Except.ok ⟨none,
            { name := "User", derives := ["::std::clone::Clone"], rename_all := none,
              fields := [{ field_name := "first_name", field_type := RustType.string,
                           serde_alias := none }] }, []⟩
    ∧ json2struct (TokList.ofList [Tok.ident "User", Tok.atSign, Tok.ident "no_alias",
          Tok.braces (TokList.ofList [Tok.braces (TokList.ofList
            [Tok.litStr "first_name", Tok.colon, Tok.litStr "John"])])])
        = Except.ok ⟨none,
            { name := "User", derives := ["::std::clone::Clone"], rename_all := none,
              fields := [{ field_name := "first_name", field_type := RustType.string,
                           serde_alias := none }] }, []⟩ := by
  refine ⟨rfl, ?_, ?_⟩
  · have hp : parseMacroInput (TokList.ofList [Tok.ident "User",
        Tok.braces (TokList.ofList [Tok.braces (TokList.ofList
          [Tok.litStr "first_name", Tok.colon, Tok.litStr "John"])])])
        = Except.ok ⟨"User", ⟨false, none, false, false, []⟩,
            ⟨[("first_name", JsonValue.str "John")]⟩⟩ := rfl
    simp [json2struct, hp, json2structOutput, generate_structs, genStruct, genEntries,
      derivesOf, sanitize_identifier, sanitizeChars, char_is_alphanumeric, char_to_lowercase]
  · have hp : parseMacroInput (TokList.ofList [Tok.ident "User", Tok.atSign,
        Tok.ident "no_alias",
        Tok.braces (TokList.ofList [Tok.braces (TokList.ofList
          [Tok.litStr "first_name", Tok.colon, Tok.litStr "John"])])])
        = Except.ok ⟨"User", ⟨false, none, false, false, []⟩,
            ⟨[("first_name", JsonValue.str "John")]⟩⟩ := rfl
    simp [json2struct, hp, json2structOutput, generate_structs, genStruct, genEntries,
      derivesOf, sanitize_identifier, sanitizeChars, char_is_alphanumeric, char_to_lowercase]

/-- C7: a flag token outside the recognized set aborts flag parsing with the
error that names the offending token and lists the valid flags, and the whole
invocation then fails with that error, producing no type definitions. -/
theorem unknown_flag_rejected (flags : JsonMacroFlags) (name f : String) (rest : TokList)
    (h : ¬ f ∈ (["debug", "store_json", "no_alias", "camel", "snake", "pascal",
        "derive"] : List String)) :
    parseFlags flags (TokList.cons Tok.atSign (TokList.cons (Tok.ident f) rest))
        = Except.error (unknownFlagMessage f)
    ∧ json2struct (TokList.cons (Tok.ident name)
          (TokList.cons Tok.atSign (TokList.cons (Tok.ident f) rest)))
        = Except.error (unknownFlagMessage f) := by
  simp only [List.mem_cons, List.not_mem_nil, or_false, not_or] at h
  obtain ⟨h1, h2, h3, h4, h5, h6, h7⟩ := h
  have key : ∀ g : JsonMacroFlags,
      parseFlags g (TokList.cons Tok.atSign (TokList.cons (Tok.ident f) rest))
        = Except.error (unknownFlagMessage f) := by
    intro g
    simp only [parseFlags]
  exact ⟨key flags, by simp [json2struct, parseMacroInput, key defaultFlags]⟩

/-- Witness for `unknown_flag_rejected` at the flag `@bogus`. -/
theorem unknown_flag_rejected_witness :
    ¬ ("bogus" ∈ (["debug", "store_json", "no_alias", "camel", "snake", "pascal",
        "derive"] : List String))
    ∧ (parseFlags defaultFlags (TokList.cons Tok.atSign
            (TokList.cons (Tok.ident "bogus") TokList.nil))
          = Except.error (unknownFlagMessage "bogus")
        ∧ json2struct (TokList.cons (Tok.ident "T") (TokList.cons Tok.atSign
            (TokList.cons (Tok.ident "bogus") TokList.nil)))
          = Except.error (unknownFlagMessage "bogus")) :=
  ⟨by decide, unknown_flag_rejected defaultFlags "T" "bogus" TokList.nil (by decide)⟩

/-- C3 (counterexample): a comma between consecutive entries is NOT required —
the object body `"a": "x" "b": "y"` (no comma) parses successfully to two
entries, and so does the array body `"x" "y"`, refuting "input with two
adjacent entries and no separating comma is a parse error". -/
theorem comma_required_cx :
    parseJsonStruct (TokList.cons (Tok.braces (TokList.ofList
        [Tok.litStr "a", Tok.colon, Tok.litStr "x",
         Tok.litStr "b", Tok.colon, Tok.litStr "y"])) TokList.nil)
      = Except.ok (⟨[("a", JsonValue.str "x"), ("b", JsonValue.str "y")]⟩, TokList.nil)
    ∧ parseJsonValue1 (Tok.brackets (TokList.ofList [Tok.litStr "x", Tok.litStr "y"]))
      = Except.ok (JsonValue.array [JsonValue.str "x", JsonValue.str "y"]) :=
  ⟨rfl, rfl⟩

/-- C3 (amended): the comma after an entry or array element is optional — the
parser consumes one comma when present and accepts adjacent entries without
one; in particular the with-comma form (which ends in a trailing comma) and the
completely comma-free form of the same body parse to the same result. -/
theorem commas_optional :
    (∀ (es : List (String × String)) (b : Bool),
        parseObjLoop (objToks b es)
          = Except.ok (es.map (fun p => (p.1, JsonValue.str p.2))))
    ∧ (∀ (vs : List String) (b : Bool),
        parseArrLoop (arrToks b vs) = Except.ok (vs.map JsonValue.str)) := by
  constructor
  · intro es b
    induction es with
    | nil => rfl
    | cons p rest ih =>
      obtain ⟨k, v⟩ := p
      cases b with
      | true => simp [objToks, parseObjLoop, parseJsonValue1, ih]
      | false =>
        cases rest with
        | nil => rfl
        | cons q rest2 =>
          obtain ⟨k2, v2⟩ := q
          simp [objToks] at ih ⊢
          simp [parseObjLoop, parseJsonValue1, ih]
  · intro vs b
    induction vs with
    | nil => rfl
    | cons v rest ih =>
      cases b with
      | true => simp [arrToks, parseArrLoop, parseJsonValue1, ih]
      | false =>
        cases rest with
        | nil => rfl
        | cons v2 rest2 =>
          simp [arrToks] at ih ⊢
          simp [parseArrLoop, parseJsonValue1, ih]

/-- C4 (counterexample): sanitization is NOT idempotent on full Unicode input.
For `s` the one-character string U+0130 (LATIN CAPITAL LETTER I WITH DOT
ABOVE): the character is alphanumeric, so the first pass keeps it and
lowercasing turns it into U+0069 U+0307; the second pass then replaces the
combining mark U+0307 (not alphanumeric) with an underscore. -/
theorem sanitize_not_idempotent_cx :
    sanitize_identifier (String.mk [Char.ofNat 0x130])
        = String.mk [Char.ofNat 0x69, Char.ofNat 0x307]
    ∧ sanitize_identifier (sanitize_identifier (String.mk [Char.ofNat 0x130])) = "i_"
    ∧ sanitize_identifier (sanitize_identifier (String.mk [Char.ofNat 0x130]))
        ≠ sanitize_identifier (String.mk [Char.ofNat 0x130]) := by
  refine ⟨by decide, by decide, by decide⟩

/-- Lemma: `sanitizeChars` distributes over append. -/
theorem sanitizeChars_append (l1 l2 : List Char) :
    sanitizeChars (l1 ++ l2) = sanitizeChars l1 ++ sanitizeChars l2 := by
  simp [sanitizeChars, List.map_append, List.flatMap_append]

/-- One-character idempotence of sanitization on the ASCII range, checked by
evaluation over all 128 code points. -/
theorem sanitizeChars_idem_char :
    ∀ n : Fin 128, sanitizeChars (sanitizeChars [Char.ofNat n.val])
      = sanitizeChars [Char.ofNat n.val] := by decide

/-- Idempotence of sanitization on ASCII character lists. -/
theorem sanitizeChars_idem_ascii (l : List Char) (h : ∀ c ∈ l, c.toNat < 128) :
    sanitizeChars (sanitizeChars l) = sanitizeChars l := by
  induction l with
  | nil => rfl
  | cons c t ih =>
    have hc : c.toNat < 128 := h c (List.mem_cons_self c t)
    have hsingle : sanitizeChars (sanitizeChars [c]) = sanitizeChars [c] := by
      have := sanitizeChars_idem_char ⟨c.toNat, hc⟩
      simpa [Char.ofNat_toNat] using this
    have hcons : (c :: t) = [c] ++ t := rfl
    rw [hcons, sanitizeChars_append, sanitizeChars_append, hsingle,
      ih (fun x hx => h x (List.mem_cons_of_mem c hx))]

/-- C4 (amended): `sanitize_identifier` is idempotent on every string of ASCII
characters (full-Unicode lowercasing can emit combining marks — U+0130 becomes
U+0069 U+0307 — which a second pass replaces with an underscore, so the
unrestricted claim fails; see the counterexample). -/
theorem sanitize_idempotent_ascii (s : String) (h : ∀ c ∈ s.data, c.toNat < 128) :
    sanitize_identifier (sanitize_identifier s) = sanitize_identifier s := by
  simp only [sanitize_identifier]
  exact congrArg String.mk (sanitizeChars_idem_ascii s.data h)

/-- Witness for `sanitize_idempotent_ascii` at a concrete ASCII string. -/
theorem sanitize_idempotent_ascii_witness :
    (∀ c ∈ ("User Name-1!" : String).data, c.toNat < 128)
    ∧ sanitize_identifier (sanitize_identifier "User Name-1!")
        = sanitize_identifier "User Name-1!" :=
  ⟨by decide, sanitize_idempotent_ascii "User Name-1!" (by decide)⟩

/-- Lexicographic character-list order is irreflexive. -/
theorem charListLt_self (l : List Char) : charListLt l l = false := by
  induction l with
  | nil => rfl
  | cons a as ih => simp [charListLt, Nat.lt_irrefl, ih]

/-- String order is irreflexive. -/
theorem strLt_self (k : String) : strLt k k = false := charListLt_self k.data

/-- Looking up the key just inserted returns the inserted value. -/
theorem mapLookup_mapInsert_self (k : String) (v : SValue) (m : List (String × SValue)) :
    mapLookup k (mapInsert k v m) = some v := by
  induction m with
  | nil => simp [mapInsert, mapLookup]
  | cons p rest ih =>
    obtain ⟨k', v'⟩ := p
    by_cases h1 : strLt k k' = true
    · simp [mapInsert, h1, mapLookup]
    · by_cases h2 : k = k'
      · simp [mapInsert, h1, h2, mapLookup, strLt_self]
      · simp [mapInsert, h1, h2, mapLookup, ih]

/-- Inserting under one key does not change lookups of other keys. -/
theorem mapLookup_mapInsert_ne (a k : String) (v : SValue) (m : List (String × SValue))
    (hne : a ≠ k) : mapLookup a (mapInsert k v m) = mapLookup a m := by
  induction m with
  | nil => simp [mapInsert, mapLookup, hne]
  | cons p rest ih =>
    obtain ⟨k', v'⟩ := p
    by_cases h1 : strLt k k' = true
    · simp [mapInsert, h1, mapLookup, hne]
    · by_cases h2 : k = k'
      · subst h2
        simp [mapInsert, h1, mapLookup, hne, strLt_self]
      · simp [mapInsert, h1, h2, mapLookup, ih]

/-- The keys after an insert are the inserted key together with the old keys. -/
theorem mem_keys_mapInsert (a k : String) (v : SValue) (m : List (String × SValue)) :
    a ∈ (mapInsert k v m).map Prod.fst ↔ a = k ∨ a ∈ m.map Prod.fst := by
  induction m with
  | nil => simp [mapInsert]
  | cons p rest ih =>
    obtain ⟨k', v'⟩ := p
    by_cases h1 : strLt k k' = true
    · simp [mapInsert, h1]
    · by_cases h2 : k = k'
      · subst h2
        simp [mapInsert, h1]
      · simp [mapInsert, h1, h2, ih]
        tauto

/-- Inserting a key absent from the map grows it by exactly one entry. -/
theorem length_mapInsert_fresh (k : String) (v : SValue) (m : List (String × SValue))
    (h : k ∉ m.map Prod.fst) : (mapInsert k v m).length = m.length + 1 := by
  induction m with
  | nil => rfl
  | cons p rest ih =>
    obtain ⟨k', v'⟩ := p
    simp only [List.map_cons, List.mem_cons, not_or] at h
    by_cases h1 : strLt k k' = true
    · simp [mapInsert, h1]
    · simp [mapInsert, h1, h.1, ih h.2]

/-- Folding inserts over pairs whose keys avoid `k` leaves lookups of `k`
unchanged. -/
theorem mapLookup_foldIns_not_mem (l : List (String × SValue)) (k : String)
    (h : k ∉ l.map Prod.fst) :
    ∀ m, mapLookup k (l.foldl (fun m p => mapInsert p.1 p.2 m) m) = mapLookup k m := by
  induction l with
  | nil => intro m; rfl
  | cons p rest ih =>
    obtain ⟨k', v'⟩ := p
    simp only [List.map_cons, List.mem_cons, not_or] at h
    intro m
    rw [List.foldl_cons, ih h.2, mapLookup_mapInsert_ne k k' v' m h.1]

/-- With pairwise-distinct keys, the collected map sends each original key to
its value. -/
theorem mapLookup_foldIns_mem (l : List (String × SValue)) (k : String) (w : SValue)
    (hnd : (l.map Prod.fst).Nodup) (hmem : (k, w) ∈ l) :
    ∀ m, mapLookup k (l.foldl (fun m p => mapInsert p.1 p.2 m) m) = some w := by
  induction l with
  | nil => cases hmem
  | cons p rest ih =>
    obtain ⟨k', v'⟩ := p
    simp only [List.map_cons, List.nodup_cons] at hnd
    intro m
    rcases List.mem_cons.mp hmem with h | h
    · cases h
      rw [List.foldl_cons, mapLookup_foldIns_not_mem rest k hnd.1,
        mapLookup_mapInsert_self]
    · rw [List.foldl_cons]
      exact ih hnd.2 h _

/-- With pairwise-distinct keys disjoint from the accumulator, collecting adds
one map entry per pair. -/
theorem length_foldIns (l : List (String × SValue))
    (hnd : (l.map Prod.fst).Nodup) :
    ∀ m, (∀ a ∈ l.map Prod.fst, a ∉ m.map Prod.fst) →
      (l.foldl (fun m p => mapInsert p.1 p.2 m) m).length = m.length + l.length := by
  induction l with
  | nil => intro m _; rfl
  | cons p rest ih =>
    obtain ⟨k', v'⟩ := p
    simp only [List.map_cons, List.nodup_cons] at hnd
    intro m hdisj
    have hfresh : k' ∉ m.map Prod.fst := hdisj k' (List.mem_cons_self _ _)
    have hdisj2 : ∀ a ∈ rest.map Prod.fst, a ∉ (mapInsert k' v' m).map Prod.fst := by
      intro a ha
      rw [mem_keys_mapInsert]
      push_neg
      exact ⟨fun hak => hnd.1 (hak ▸ ha), hdisj a (List.mem_cons_of_mem _ ha)⟩
    rw [List.foldl_cons, ih hnd.2 (mapInsert k' v' m) hdisj2,
      length_mapInsert_fresh k' v' m hfresh]
    simp [List.length_cons]
    omega

/-- Lemma: `toSerdeEntries` keeps the keys. -/
theorem toSerdeEntries_map_fst (es : List (String × JsonValue)) :
    (toSerdeEntries es).map Prod.fst = es.map Prod.fst := by
  induction es with
  | nil => simp [toSerdeEntries]
  | cons p rest ih =>
    obtain ⟨k, v⟩ := p
    simp [toSerdeEntries, ih]

/-- Lemma: `toSerdeEntries` keeps the length. -/
theorem toSerdeEntries_length (es : List (String × JsonValue)) :
    (toSerdeEntries es).length = es.length := by
  induction es with
  | nil => simp [toSerdeEntries]
  | cons p rest ih =>
    obtain ⟨k, v⟩ := p
    simp [toSerdeEntries, ih]

/-- Every original entry appears converted in `toSerdeEntries`. -/
theorem toSerdeEntries_mem (es : List (String × JsonValue)) (k : String) (v : JsonValue)
    (h : (k, v) ∈ es) : (k, to_serde_value v) ∈ toSerdeEntries es := by
  induction es with
  | nil => cases h
  | cons p rest ih =>
    obtain ⟨k', v'⟩ := p
    rcases List.mem_cons.mp h with h | h
    · cases h
      simp [toSerdeEntries]
    · simp [toSerdeEntries]
      exact Or.inr (ih h)

/-- Lemma: `keysDistinct` is exactly `List.Nodup`. -/
theorem keysDistinct_iff_nodup (ks : List String) : keysDistinct ks = true ↔ ks.Nodup := by
  induction ks with
  | nil => simp [keysDistinct]
  | cons k rest ih =>
    have hany : (rest.any (fun k' => k' = k)) = true ↔ k ∈ rest := by
      simp [List.any_eq_true]
    constructor
    · intro h
      simp only [keysDistinct, Bool.and_eq_true, Bool.not_eq_true'] at h
      refine List.nodup_cons.mpr ⟨fun hk => ?_, ih.mp h.2⟩
      have hcontra := hany.mpr hk
      rw [h.1] at hcontra
      exact Bool.false_ne_true hcontra
    · intro h
      obtain ⟨hk, hrest⟩ := List.nodup_cons.mp h
      simp only [keysDistinct, Bool.and_eq_true, Bool.not_eq_true']
      exact ⟨Bool.eq_false_iff.mpr (fun hh => hk (hany.mp hh)), ih.mpr hrest⟩

/-- Lemma: `streqEntries` holds once every entry's key looks up to a structurally
equal value. -/
theorem streqEntries_of_lookup (es : List (String × JsonValue))
    (m : List (String × SValue))
    (h : ∀ p ∈ es, ∃ w, mapLookup p.1 m = some w ∧ streq p.2 w = true) :
    streqEntries es m = true := by
  induction es with
  | nil => simp [streqEntries]
  | cons p rest ih =>
    obtain ⟨k, v⟩ := p
    obtain ⟨w, hw, hs⟩ := h (k, v) (List.mem_cons_self _ _)
    simp only [streqEntries, hw, hs, Bool.and_eq_true]
    exact ⟨trivial, ih (fun q hq => h q (List.mem_cons_of_mem _ hq))⟩

mutual

/-- A parsed value that is free of duplicate keys and stores only finite
numbers is structurally equal to its serde conversion. -/
theorem streq_to_serde (v : JsonValue) (h : dupFree v = true)
    (hf : finiteNums v = true) : streq v (to_serde_value v) = true := by
  match v with
  | JsonValue.str s => simp [streq, to_serde_value]
  | JsonValue.number n =>
    match n with
    | F64.finite q => simp [streq, to_serde_value, numberToSerde]
    | F64.infinite b => simp [finiteNums] at hf
  | JsonValue.boolean b => simp [streq, to_serde_value]
  | JsonValue.null => simp [streq, to_serde_value]
  | JsonValue.array xs =>
    have hx : dupFreeList xs = true := by simpa [dupFree] using h
    have hfx : finiteNumsList xs = true := by simpa [finiteNums] using hf
    simpa [streq, to_serde_value] using streq_to_serde_list xs hx hfx
  | JsonValue.object es =>
    have h' := h
    simp only [dupFree, Bool.and_eq_true] at h'
    obtain ⟨hk, he⟩ := h'
    have hfe : finiteNumsEntries es = true := by simpa [finiteNums] using hf
    have hnd : ((toSerdeEntries es).map Prod.fst).Nodup := by
      rw [toSerdeEntries_map_fst]
      exact (keysDistinct_iff_nodup _).mp hk
    have hlen : (mapCollect (toSerdeEntries es)).length = es.length := by
      have hl := length_foldIns (toSerdeEntries es) hnd [] (by intro a ha; simp)
      simpa [mapCollect, toSerdeEntries_length] using hl
    have hentries : streqEntries es (mapCollect (toSerdeEntries es)) = true := by
      apply streqEntries_of_lookup
      intro p hp
      refine ⟨to_serde_value p.2, ?_, streq_to_serde_entries es he hfe p hp⟩
      have hpmem : (p.1, p.2) ∈ es := by simpa using hp
      have hmem := toSerdeEntries_mem es p.1 p.2 hpmem
      exact mapLookup_foldIns_mem (toSerdeEntries es) p.1 (to_serde_value p.2) hnd hmem []
    simp only [to_serde_value, streq, Bool.and_eq_true, hentries, and_true, hlen,
      decide_eq_true_eq]
termination_by sizeOf v

/-- Pointwise version of `streq_to_serde` for array elements. -/
theorem streq_to_serde_list (l : List JsonValue) (h : dupFreeList l = true)
    (hf : finiteNumsList l = true) : streqList l (toSerdeList l) = true := by
  match l with
  | [] => simp [streqList, toSerdeList]
  | v :: rest =>
    simp only [dupFreeList, Bool.and_eq_true] at h
    simp only [finiteNumsList, Bool.and_eq_true] at hf
    simp only [toSerdeList, streqList, Bool.and_eq_true]
    exact ⟨streq_to_serde v h.1 hf.1, streq_to_serde_list rest h.2 hf.2⟩
termination_by sizeOf l

/-- Pointwise version of `streq_to_serde` for object entries. -/
theorem streq_to_serde_entries (es : List (String × JsonValue))
    (h : dupFreeEntries es = true) (hf : finiteNumsEntries es = true) :
    ∀ p ∈ es, streq p.2 (to_serde_value p.2) = true := by
  match es with
  | [] => intro p hp; cases hp
  | (k, v) :: rest =>
    simp only [dupFreeEntries, Bool.and_eq_true] at h
    simp only [finiteNumsEntries, Bool.and_eq_true] at hf
    intro p hp
    rcases List.mem_cons.mp hp with hp | hp
    · subst hp
      exact streq_to_serde v h.1 hf.1
    · exact streq_to_serde_entries rest h.2 hf.2 p hp
termination_by sizeOf es

end

/-- C9 (amended): when `@store_json` is set, every object in the parsed root
value has pairwise-distinct keys, and every stored number is finite (no
numeric literal overflowed to an f64 infinity), the value decoded from the
emitted constant is structurally equal to the parsed root.  The unrestricted
claim fails in two ways, both in the counterexample: a duplicate key is
collapsed last-wins by the map collection, and an overflowed literal such as
1e309 is stored as infinity but embedded as `0` by
`Number::from_f64(..).unwrap_or(0)`. -/
theorem store_json_roundtrip (inp : JsonMacroInput)
    (hstore : inp.flags.store_json_value = true)
    (hdup : dupFree (JsonValue.object inp.content.entries) = true)
    (hfin : finiteNums (JsonValue.object inp.content.entries) = true) :
    ((json2structOutput inp).json_constant).map
        (streq (JsonValue.object inp.content.entries)) = some true := by
  have hs := streq_to_serde (JsonValue.object inp.content.entries) hdup hfin
  simp [json2structOutput, hstore, hs]

/-- Witness for `store_json_roundtrip` at a concrete duplicate-free,
finite-numbered invocation. -/
theorem store_json_roundtrip_witness :
    ((⟨"User", ⟨false, none, true, false, []⟩,
        ⟨[("a", JsonValue.str "x")]⟩⟩ : JsonMacroInput).flags.store_json_value = true)
    ∧ dupFree (JsonValue.object [("a", JsonValue.str "x")]) = true
    ∧ finiteNums (JsonValue.object [("a", JsonValue.str "x")]) = true
    ∧ ((json2structOutput ⟨"User", ⟨false, none, true, false, []⟩,
          ⟨[("a", JsonValue.str "x")]⟩⟩).json_constant).map
        (streq (JsonValue.object [("a", JsonValue.str "x")])) = some true :=
  ⟨rfl, by simp [dupFree, dupFreeEntries, keysDistinct],
    by simp [finiteNums, finiteNumsEntries],
    store_json_roundtrip
      ⟨"User", ⟨false, none, true, false, []⟩, ⟨[("a", JsonValue.str "x")]⟩⟩ rfl
      (by simp [dupFree, dupFreeEntries, keysDistinct])
      (by simp [finiteNums, finiteNumsEntries])⟩

/-- C9 (counterexample): the embedded constant does not round-trip the parsed
root in general.  First failure mode: with `@store_json` and the
duplicate-keyed body `{"a": "x", "a": "y"}`, the parsed root keeps both
entries but the collected map keeps only the last.  Second failure mode: even
with pairwise-distinct keys, the overflowing literal 1e309 (written out in
decimal) parses to an f64 infinity, which
`Number::from_f64(..).unwrap_or(Number::from(0))` embeds as `0`, so the
decoded constant `{"a": 0}` is not structurally equal to the root holding the
infinity. -/
theorem store_json_roundtrip_cx :
    parseMacroInput (TokList.ofList [Tok.ident "User", Tok.atSign, Tok.ident "store_json",
        Tok.braces (TokList.ofList [Tok.braces (TokList.ofList
          [Tok.litStr "a", Tok.colon, Tok.litStr "x", Tok.comma,
           Tok.litStr "a", Tok.colon, Tok.litStr "y"])])])
      = Except.ok ⟨"User", ⟨false, none, true, false, []⟩,
          ⟨[("a", JsonValue.str "x"), ("a", JsonValue.str "y")]⟩⟩
    ∧ (json2structOutput ⟨"User", ⟨false, none, true, false, []⟩,
          ⟨[("a", JsonValue.str "x"), ("a", JsonValue.str "y")]⟩⟩).json_constant
        = some (SValue.obj [("a", SValue.str "y")])
    ∧ streq (JsonValue.object [("a", JsonValue.str "x"), ("a", JsonValue.str "y")])
        (SValue.obj [("a", SValue.str "y")]) = false
    ∧ parseMacroInput (TokList.ofList [Tok.ident "N", Tok.atSign, Tok.ident "store_json",
        Tok.braces (TokList.ofList [Tok.braces (TokList.ofList
          [Tok.litStr "a", Tok.colon,
           Tok.litFloat 1000000000000000000000000000000000000000000000000000000000000000000000000000000000000000000000000000000000000000000000000000000000000000000000000000000000000000000000000000000000000000000000000000000000000000000000000000000000000000000000000000000000000000000000000000000000000000000000000000000000000000000000])])])
      = Except.ok ⟨"N", ⟨false, none, true, false, []⟩,
          ⟨[("a", JsonValue.number (F64.infinite false))]⟩⟩
    ∧ dupFree (JsonValue.object [("a", JsonValue.number (F64.infinite false))]) = true
    ∧ (json2structOutput ⟨"N", ⟨false, none, true, false, []⟩,
          ⟨[("a", JsonValue.number (F64.infinite false))]⟩⟩).json_constant
        = some (SValue.obj [("a", SValue.num 0)])
    ∧ streq (JsonValue.object [("a", JsonValue.number (F64.infinite false))])
        (SValue.obj [("a", SValue.num 0)]) = false := by
  refine ⟨rfl, ?_, ?_, ?_, ?_, ?_, ?_⟩
  · simp [json2structOutput, to_serde_value, toSerdeEntries, mapCollect, mapInsert,
      strLt_self]
  · simp [streq]
  · rfl
  · simp [dupFree, dupFreeEntries, keysDistinct]
  · simp [json2structOutput, to_serde_value, toSerdeEntries, mapCollect, mapInsert,
      numberToSerde]
  · simp [streq, streqEntries, mapLookup]

/-- The generated field names are the sanitized source keys, one per entry in
order, with no de-duplication. -/
theorem genEntries_field_names (flags : JsonMacroFlags) (base : String)
    (es : List (String × JsonValue)) :
    (genEntries flags base es).1.map FieldDef.field_name
      = es.map (fun p => sanitize_identifier p.1) := by
  induction es with
  | nil => simp [genEntries]
  | cons p rest ih =>
    obtain ⟨key, v⟩ := p
    cases v <;> simp [genEntries, ih]

/-- C10: the generator emits exactly one field per `(key, value)` entry in the
object's original order (duplicated keys give duplicated fields), while the
conversion feeding the embedded constant collapses a repeated key to its last
entry; concretely `{"a": "x", "a": "y"}` yields two fields but a one-entry
constant object. -/
theorem one_field_per_entry :
    (∀ flags es base, ((genStruct flags es base).1.fields.map FieldDef.field_name)
        = es.map (fun p => sanitize_identifier p.1))
    ∧ (∀ (k : String) (v1 v2 : JsonValue),
        to_serde_value (JsonValue.object [(k, v1), (k, v2)])
          = SValue.obj [(k, to_serde_value v2)])
    ∧ (((genStruct defaultFlags [("a", JsonValue.str "x"), ("a", JsonValue.str "y")]
          "T").1.fields.map FieldDef.field_name) = ["a", "a"])
    ∧ (to_serde_value (JsonValue.object [("a", JsonValue.str "x"), ("a", JsonValue.str "y")])
        = SValue.obj [("a", SValue.str "y")]) := by
  refine ⟨?_, ?_, ?_, ?_⟩
  · intro flags es base
    simp [genStruct, genEntries_field_names]
  · intro k v1 v2
    simp [to_serde_value, toSerdeEntries, mapCollect, mapInsert, strLt_self]
  · simp [genStruct, genEntries, defaultFlags, sanitize_identifier, sanitizeChars,
      char_is_alphanumeric, char_to_lowercase]
  · simp [to_serde_value, toSerdeEntries, mapCollect, mapInsert, strLt_self]

end JsonToStruct
